import Mathlib

/-!
Shallow embedding of `src/search.rs` and `src/subscription.rs` of the
`iced_palette` crate: Sublime-Text-style fuzzy matching (`fuzzy_match`,
`is_word_boundary`), command ranking (`filter_commands`) and
selection-cursor navigation (`navigate_up`, `navigate_down`), together
with proofs about the specified properties.

Embedding conventions:
* Strings are embedded as `List Char` (the Rust code iterates
  `str::chars()` throughout and never touches byte offsets).
* Rust `usize` indices become `Nat`; the `i32` score becomes `Int`
  (the bonuses are small constants and the penalties are bounded by the
  text length, so `i32` overflow plays no role in the claims).
* An unchecked Rust slice index `chars[idx]` panics when `idx` is out of
  bounds; the embedding makes that outcome explicit with `PanicOr`.
-/

namespace IcedPalette

/-- Outcome of Rust code that may panic. In this development the only
panic source is the unchecked slice indexing inside `is_word_boundary`. -/
inductive PanicOr (α : Type) where
  | panic : PanicOr α
  | ok : α → PanicOr α
deriving DecidableEq

/-- Sequencing of possibly-panicking computations: a panic aborts
everything that follows. -/
def PanicOr.bind {α β : Type} : PanicOr α → (α → PanicOr β) → PanicOr β
  | .panic, _ => .panic
  | .ok a, f => f a

/-- `FuzzyMatch` (src/search.rs): the score together with the indices of
the matched characters in the target string. -/
structure FuzzyMatch where
  score : Int
  indices : List Nat
deriving DecidableEq

/-- Models Rust `char::to_lowercase` (as iterated by `str::to_lowercase`)
on the fragment relevant to this development: ASCII uppercase letters map
to their lowercase counterpart, and U+0130 (LATIN CAPITAL LETTER I WITH
DOT ABOVE, the one Unicode character whose lowercase mapping consists of
more than one character) maps to U+0069 followed by the combining mark
U+0307. Every other character maps to itself. -/
def charLower (c : Char) : List Char :=
  if c = Char.ofNat 0x130 then [Char.ofNat 0x69, Char.ofNat 0x307]
  else [c.toLower]

/-- Models Rust `str::to_lowercase` at the character-sequence level:
the concatenation of the lowercase expansions of the characters. -/
def strLower (s : List Char) : List Char := s.flatMap charLower

/-- `is_word_boundary` (src/search.rs): whether position `idx` of `chars`
is a word boundary. The Rust body reads `chars[idx - 1]` and `chars[idx]`
with unchecked slice indexing, so an out-of-bounds `idx` panics; the
embedding returns `.panic` exactly in that case (for `idx ≠ 0`, the first
read is in bounds whenever the second is, because `idx - 1 < idx`).
`Char.isLower` / `Char.isUpper` model Rust `char::is_lowercase` /
`char::is_uppercase` on the ASCII fragment. -/
def is_word_boundary (chars : List Char) (idx : Nat) : PanicOr Bool :=
  if idx = 0 then .ok true
  else if h : idx < chars.length then
    let prev := chars.get ⟨idx - 1, Nat.lt_of_le_of_lt (Nat.sub_le idx 1) h⟩
    let curr := chars.get ⟨idx, h⟩
    .ok ((prev = '_' || prev = '-' || prev = ' ' || prev = '/' || prev = '\\' || prev = '.')
      || (prev.isLower && curr.isUpper))
  else .panic

/-- The loop state of `fuzzy_match` (src/search.rs): the `indices`,
`score`, `pattern_idx` and `last_match_idx` mutable variables. -/
structure ScanState where
  indices : List Nat
  score : Int
  pattern_idx : Nat
  last_match_idx : Option Nat
deriving DecidableEq

/-- The `for (target_idx, &target_char) in target_lower.iter().enumerate()`
loop of `fuzzy_match` (src/search.rs): `pl` is `pattern_lower`, `tc` is
`target_chars`, `l` is the remaining suffix of `target_lower` and `tidx`
is the index of its first character. The `pattern_idx >= pattern_lower.len()`
check at the top of the loop body is the Rust `break`. -/
def fuzzyScan (pl tc : List Char) : List Char → Nat → ScanState → PanicOr ScanState
  | [], _, st => .ok st
  | c :: rest, tidx, st =>
    if h : st.pattern_idx < pl.length then
      if c = pl.get ⟨st.pattern_idx, h⟩ then
        match is_word_boundary tc tidx with
        | .panic => .panic
        | .ok wb =>
          fuzzyScan pl tc rest (tidx + 1)
            { indices := st.indices ++ [tidx]
              score := st.score + (if tidx = 0 then (8 : Int) else 0)
                + (if wb then (10 : Int) else 0)
                + (match st.last_match_idx with
                   | none => 0
                   | some last =>
                     if tidx = last + 1 then (5 : Int)
                     else -(((tidx - last - 1 : Nat) : Int)))
              pattern_idx := st.pattern_idx + 1
              last_match_idx := some tidx }
      else fuzzyScan pl tc rest (tidx + 1) st
    else .ok st

/-- `fuzzy_match` (src/search.rs): empty patterns trivially succeed with
score 0; otherwise the greedy left-to-right scan runs over the lowered
target, and the match succeeds (with a flat `+10` added to the score)
exactly when every character of the lowered pattern was consumed. -/
def fuzzy_match (pattern target : List Char) : PanicOr (Option FuzzyMatch) :=
  if pattern = [] then .ok (some { score := 0, indices := [] })
  else
    let pattern_lower := strLower pattern
    let target_chars := target
    let target_lower := strLower target
    match fuzzyScan pattern_lower target_chars target_lower 0
        { indices := [], score := 0, pattern_idx := 0, last_match_idx := none } with
    | .panic => .panic
    | .ok st =>
      if st.pattern_idx = pattern_lower.length then
        .ok (some { score := st.score + 10, indices := st.indices })
      else .ok none

/-- The word-boundary rule as the specification words it: position 0 is a
boundary; otherwise a boundary holds when the preceding character (in the
original character sequence) is one of the separators `_ - space / \ .`,
or when the preceding character is lowercase and the current character is
uppercase. Out-of-range positions are read with `getElem?`. -/
def specWordBoundary (chars : List Char) (idx : Nat) : Bool :=
  idx = 0 ||
    (match chars[idx - 1]?, chars[idx]? with
     | some prev, some curr =>
       (prev = '_' || prev = '-' || prev = ' ' || prev = '/' || prev = '\\' || prev = '.')
         || (prev.isLower && curr.isUpper)
     | _, _ => false)

/-- The per-matched-character scoring accumulator as the specification
words it, over the list of matched indices in scan order: `+8` at text
index 0, `+10` at a word boundary, `+5` when consecutive with the
previous matched index, and minus the gap length otherwise (no gap term
for the first match). `prev` is the previously matched index, if any. -/
def specScoreAux (tc : List Char) : List Nat → Option Nat → Int
  | [], _ => 0
  | i :: rest, prev =>
    (if i = 0 then (8 : Int) else 0)
      + (if specWordBoundary tc i then (10 : Int) else 0)
      + (match prev with
         | none => 0
         | some p => if i = p + 1 then (5 : Int) else -(((i - p - 1 : Nat) : Int)))
      + specScoreAux tc rest (some i)

/-- The total score the specification prescribes for a successful match
with matched indices `indices` against original text `tc`: the per-match
accumulator plus the flat `+10` added once the full pattern has matched. -/
def specScore (tc : List Char) (indices : List Nat) : Int :=
  specScoreAux tc indices none + 10

/-- `Command` (src/command.rs), restricted to the fields `filter_commands`
reads: the display `name`, the optional `description`, and the `keywords`
list. The remaining fields (`id`, `category`, `shortcut`, `enabled`,
`action`) are never inspected by the search code and are omitted. -/
structure Command where
  name : List Char
  description : Option (List Char)
  keywords : List (List Char)
deriving DecidableEq

/-- A `filter_map`-style traversal in which the per-element function may
panic: the first panic aborts the whole traversal (as a Rust panic inside
an iterator closure does). -/
def filterMapPanic {α β : Type} (f : α → PanicOr (Option β)) : List α → PanicOr (List β)
  | [] => .ok []
  | x :: xs =>
    (f x).bind fun ob =>
      (filterMapPanic f xs).bind fun bs =>
        .ok (match ob with
             | some b => b :: bs
             | none => bs)

/-- Left fold of `Iterator::max_by_key(|m| m.score)` over the remaining
elements: the accumulator is kept only when its score is strictly
greater, so on ties the later element wins, exactly as Rust's
`max_by_key` documents. -/
def maxByScoreAux (acc : FuzzyMatch) : List FuzzyMatch → FuzzyMatch
  | [] => acc
  | m :: ms => maxByScoreAux (if acc.score > m.score then acc else m) ms

/-- `Iterator::max_by_key(|m| m.score)`: `none` on an empty iterator,
otherwise the maximal-score element, the last one on ties. -/
def maxByScore : List FuzzyMatch → Option FuzzyMatch
  | [] => none
  | m :: ms => some (maxByScoreAux m ms)

/-- The `name_match` computation of `filter_commands` (src/search.rs). -/
def nameMatch (query : List Char) (cmd : Command) : PanicOr (Option FuzzyMatch) :=
  fuzzy_match query cmd.name

/-- The `desc_match` computation of `filter_commands` (src/search.rs):
`cmd.description.as_ref().and_then(|d| fuzzy_match(query, d))`. -/
def descMatch (query : List Char) (cmd : Command) : PanicOr (Option FuzzyMatch) :=
  match cmd.description with
  | none => .ok none
  | some d => fuzzy_match query d

/-- The `keyword_match` computation of `filter_commands` (src/search.rs):
`cmd.keywords.iter().filter_map(|k| fuzzy_match(query, k)).max_by_key(|m| m.score)`. -/
def keywordMatch (query : List Char) (cmd : Command) : PanicOr (Option FuzzyMatch) :=
  (filterMapPanic (fun k => fuzzy_match query k) cmd.keywords).bind fun ms =>
    .ok (maxByScore ms)

/-- The `best` computation of `filter_commands` (src/search.rs):
`[name_match, desc_match, keyword_match].into_iter().flatten().max_by_key(|m| m.score)`. -/
def candidateBest (query : List Char) (cmd : Command) : PanicOr (Option FuzzyMatch) :=
  (nameMatch query cmd).bind fun nm =>
    (descMatch query cmd).bind fun dm =>
      (keywordMatch query cmd).bind fun km =>
        .ok (maxByScore (nm.toList ++ dm.toList ++ km.toList))

/-- The list of field results that actually produced a match, in the
evaluation order name, description, best keyword — the flattened
`[name_match, desc_match, keyword_match]` array of `filter_commands`. -/
def fieldMatches (query : List Char) (cmd : Command) : PanicOr (List FuzzyMatch) :=
  (nameMatch query cmd).bind fun nm =>
    (descMatch query cmd).bind fun dm =>
      (keywordMatch query cmd).bind fun km =>
        .ok (nm.toList ++ dm.toList ++ km.toList)

/-- One insertion step of a stable descending sort by score: the new
element is placed after every element of strictly greater score and also
after no element of smaller-or-equal score, so earlier elements win
ties. -/
def insertByScore (x : Nat × FuzzyMatch) :
    List (Nat × FuzzyMatch) → List (Nat × FuzzyMatch)
  | [] => [x]
  | y :: ys => if y.2.score > x.2.score then y :: insertByScore x ys else x :: y :: ys

/-- `matches.sort_by(|a, b| b.1.score.cmp(&a.1.score))` (src/search.rs):
Rust's `sort_by` is a stable sort, and a stable sort under a total
preorder computes a unique function, so this stable insertion sort is an
exact functional model of it. -/
def sortByScore : List (Nat × FuzzyMatch) → List (Nat × FuzzyMatch)
  | [] => []
  | x :: xs => insertByScore x (sortByScore xs)

/-- The `matches` vector of `filter_commands` (src/search.rs) before the
final sort: the enumerated commands, each mapped through `candidateBest`
and dropped when no field produced a match. -/
def rankPre (query : List Char) (commands : List Command) :
    PanicOr (List (Nat × FuzzyMatch)) :=
  filterMapPanic
    (fun p => (candidateBest query p.2).bind fun ob =>
      .ok (ob.map fun m => (p.1, m)))
    commands.enum

/-- `filter_commands` (src/search.rs): with an empty query, every command
is returned in original order with the trivial empty match; otherwise the
per-command best matches are collected and stably sorted by descending
score. -/
def filter_commands (query : List Char) (commands : List Command) :
    PanicOr (List (Nat × FuzzyMatch)) :=
  if query = [] then
    .ok (commands.enum.map fun p => (p.1, { score := 0, indices := [] }))
  else
    (rankPre query commands).bind fun ms => .ok (sortByScore ms)

/-- `navigate_up` (src/subscription.rs). -/
def navigate_up (current_index item_count : Nat) : Nat :=
  if current_index = 0 then
    if item_count > 0 then item_count - 1 else 0
  else current_index - 1

/-- `navigate_down` (src/subscription.rs). -/
def navigate_down (current_index item_count : Nat) : Nat :=
  if item_count = 0 then 0
  else if current_index ≥ item_count - 1 then 0
  else current_index + 1

/-- The pairwise relation that the sorted output of the ranker satisfies:
either the score strictly decreases, or the scores tie and the original
indices are in ascending input order (stability). -/
def RankedLE (a b : Nat × FuzzyMatch) : Prop :=
  b.2.score < a.2.score ∨ (a.2.score = b.2.score ∧ a.1 < b.1)

/-- A command whose name is `"a"` (used as concrete witness input). -/
def cmdA : Command := { name := ['a'], description := none, keywords := [] }

/-- A command whose name is `"b"` (used as concrete witness input). -/
def cmdB : Command := { name := ['b'], description := none, keywords := [] }

/-- A command all three of whose fields are `"a"` (used as concrete
witness input). -/
def cmdTie : Command := { name := ['a'], description := some ['a'], keywords := [['a']] }

/-- The match of pattern `"a"` against text `"a"`: start-of-text bonus 8,
word-boundary bonus 10, flat found bonus 10 (used as concrete witness
value). -/
def matchA : FuzzyMatch := { score := 28, indices := [0] }

/-! ### Lemmas about the matcher -/

/-- When the unchecked word-boundary computation of the code returns
without panicking, it agrees with the word-boundary rule as the
specification words it. -/
theorem is_word_boundary_ok {tc : List Char} {i : Nat} {b : Bool}
    (h : is_word_boundary tc i = .ok b) : specWordBoundary tc i = b := by
  unfold is_word_boundary at h
  unfold specWordBoundary
  split at h
  · next h0 =>
    injection h with h
    simp [h0, h]
  · next h0 =>
    split at h
    · next hlt =>
      injection h with h
      have h1 : i - 1 < tc.length := Nat.lt_of_le_of_lt (Nat.sub_le i 1) hlt
      rw [List.getElem?_eq_getElem h1, List.getElem?_eq_getElem hlt]
      simp only [List.get_eq_getElem] at h
      simp [h0, h]
    · next => exact PanicOr.noConfusion h

/-- Master lemma for the scan loop: a completed (non-panicking) run
extends the accumulated indices by some list `ext` and adds exactly the
specification's per-match score of `ext` (relative to the incoming
`last_match_idx`) to the accumulated score. -/
theorem fuzzyScan_ok_score (pl tc : List Char) :
    ∀ (l : List Char) (tidx : Nat) (st st' : ScanState),
      fuzzyScan pl tc l tidx st = .ok st' →
      ∃ ext : List Nat,
        st'.indices = st.indices ++ ext ∧
        st'.score = st.score + specScoreAux tc ext st.last_match_idx := by
  intro l
  induction l with
  | nil =>
    intro tidx st st' h
    unfold fuzzyScan at h
    injection h with h
    subst h
    exact ⟨[], by simp, by simp [specScoreAux]⟩
  | cons c rest ih =>
    intro tidx st st' h
    unfold fuzzyScan at h
    split at h
    · next hpl =>
      split at h
      · next hc =>
        cases hwb : is_word_boundary tc tidx with
        | panic => rw [hwb] at h; exact PanicOr.noConfusion h
        | ok wb =>
          rw [hwb] at h
          obtain ⟨ext2, hind, hscore⟩ := ih (tidx + 1) _ st' h
          refine ⟨tidx :: ext2, ?_, ?_⟩
          · simp only at hind
            rw [hind, List.append_assoc]
            rfl
          · simp only at hscore hind
            rw [hscore]
            simp only [specScoreAux]
            rw [is_word_boundary_ok hwb]
            ring
      · next hc => exact ih (tidx + 1) st st' h
    · next hpl =>
      injection h with h
      subst h
      exact ⟨[], by simp, by simp [specScoreAux]⟩

/-- Claim C3, counterexample: the claim quantifies over *every* pattern
and text on which `fuzzy_match` succeeds, but on the empty pattern the
call succeeds with score 0, while the claimed formula — the per-match sum
(here empty) plus the flat `+10` once the full pattern (here trivially)
has matched — yields 10. -/
theorem fuzzy_match_empty_score_ne_spec :
    fuzzy_match [] [] = .ok (some { score := 0, indices := [] }) ∧
      (0 : Int) ≠ specScore [] [] := by
  constructor
  · decide
  · decide

/-- Claim C3 (amended to non-empty patterns): whenever `fuzzy_match`
succeeds on a non-empty pattern, the returned score is exactly the
specification's formula: the sum over the matched indices, in scan order,
of the start-of-text bonus (+8 at index 0), the word-boundary bonus
(+10), the consecutive bonus (+5) or minus the gap length, plus the flat
+10 for the completed pattern. -/
theorem fuzzy_match_score_eq_spec (P T : List Char) (m : FuzzyMatch)
    (hP : P ≠ []) (h : fuzzy_match P T = .ok (some m)) :
    m.score = specScore T m.indices := by
  unfold fuzzy_match at h
  rw [if_neg hP] at h
  simp only at h
  split at h
  · exact PanicOr.noConfusion h
  · next st hscan =>
    split at h
    · next hfull =>
      injection h with h
      injection h with h
      subst h
      obtain ⟨ext, hind, hscore⟩ := fuzzyScan_ok_score _ _ _ _ _ _ hscan
      simp only at hind hscore
      rw [List.nil_append] at hind
      subst hind
      simp only [specScore]
      rw [hscore]
      ring
    · next hfull =>
      injection h with h
      exact Option.noConfusion h

/-- Witness for the amended claim C3 at pattern `"sf"` and text
`"save_file"`. -/
theorem fuzzy_match_score_eq_spec_witness :
    (['s', 'f'] : List Char) ≠ [] ∧
      fuzzy_match ['s', 'f'] ['s', 'a', 'v', 'e', '_', 'f', 'i', 'l', 'e']
        = .ok (some { score := 34, indices := [0, 5] }) ∧
      (34 : Int) = specScore ['s', 'a', 'v', 'e', '_', 'f', 'i', 'l', 'e'] [0, 5] :=
  ⟨by decide, by decide,
    fuzzy_match_score_eq_spec ['s', 'f'] ['s', 'a', 'v', 'e', '_', 'f', 'i', 'l', 'e']
      { score := 34, indices := [0, 5] } (by decide) (by decide)⟩

/-! ### Lemmas about `max_by_key` -/

theorem maxByScoreAux_mem (acc : FuzzyMatch) :
    ∀ l : List FuzzyMatch, maxByScoreAux acc l = acc ∨ maxByScoreAux acc l ∈ l := by
  intro l
  induction l generalizing acc with
  | nil => exact Or.inl rfl
  | cons m ms ih =>
    unfold maxByScoreAux
    rcases ih (if acc.score > m.score then acc else m) with h | h
    · rw [h]
      split
      · exact Or.inl rfl
      · exact Or.inr (List.mem_cons_self m ms)
    · exact Or.inr (List.mem_cons_of_mem m h)

theorem maxByScoreAux_le (acc : FuzzyMatch) :
    ∀ l : List FuzzyMatch,
      acc.score ≤ (maxByScoreAux acc l).score ∧
        ∀ x ∈ l, x.score ≤ (maxByScoreAux acc l).score := by
  intro l
  induction l generalizing acc with
  | nil => exact ⟨le_refl _, by simp⟩
  | cons m ms ih =>
    unfold maxByScoreAux
    obtain ⟨h1, h2⟩ := ih (if acc.score > m.score then acc else m)
    constructor
    · refine le_trans ?_ h1
      split
      · exact le_refl _
      · next hgt => exact le_of_not_lt hgt
    · intro x hx
      rcases List.mem_cons.mp hx with rfl | hx
      · refine le_trans ?_ h1
        split
        · next hgt => exact le_of_lt hgt
        · exact le_refl _
      · exact h2 x hx

/-- A successful `max_by_key` result is an element of the list and has
maximal score among the list's elements. -/
theorem maxByScore_some {l : List FuzzyMatch} {m : FuzzyMatch}
    (h : maxByScore l = some m) : m ∈ l ∧ ∀ x ∈ l, x.score ≤ m.score := by
  cases l with
  | nil => exact Option.noConfusion h
  | cons a as =>
    unfold maxByScore at h
    injection h with h
    subst h
    constructor
    · rcases maxByScoreAux_mem a as with h | h
      · rw [h]; exact List.mem_cons_self a as
      · exact List.mem_cons_of_mem a h
    · intro x hx
      obtain ⟨h1, h2⟩ := maxByScoreAux_le a as
      rcases List.mem_cons.mp hx with rfl | hx
      · exact h1
      · exact h2 x hx

/-- `max_by_key` returns `none` exactly on the empty iterator. -/
theorem maxByScore_eq_none {l : List FuzzyMatch}
    (h : maxByScore l = none) : l = [] := by
  cases l with
  | nil => rfl
  | cons a as => exact Option.noConfusion h

/-! ### Lemmas about the panic-aware `filter_map` -/

theorem filterMapPanic_mem {α β : Type} (f : α → PanicOr (Option β)) :
    ∀ (l : List α) (out : List β), filterMapPanic f l = .ok out →
      ∀ b ∈ out, ∃ a ∈ l, f a = .ok (some b) := by
  intro l
  induction l with
  | nil =>
    intro out h b hb
    unfold filterMapPanic at h
    injection h with h
    subst h
    exact absurd hb (List.not_mem_nil b)
  | cons x xs ih =>
    intro out h b hb
    unfold filterMapPanic at h
    cases hfx : f x with
    | panic => rw [hfx] at h; exact PanicOr.noConfusion h
    | ok ob =>
      rw [hfx] at h
      cases hrest : filterMapPanic f xs with
      | panic => rw [hrest] at h; exact PanicOr.noConfusion h
      | ok bs =>
        rw [hrest] at h
        simp only [PanicOr.bind] at h
        injection h with h
        subst h
        cases ob with
        | some b0 =>
          rcases List.mem_cons.mp hb with rfl | hb
          · exact ⟨x, List.mem_cons_self x xs, hfx⟩
          · obtain ⟨a, ha, hfa⟩ := ih bs hrest b hb
            exact ⟨a, List.mem_cons_of_mem x ha, hfa⟩
        | none =>
          obtain ⟨a, ha, hfa⟩ := ih bs hrest b hb
          exact ⟨a, List.mem_cons_of_mem x ha, hfa⟩

theorem filterMapPanic_forall {α β : Type} (f : α → PanicOr (Option β)) :
    ∀ (l : List α) (out : List β), filterMapPanic f l = .ok out →
      ∀ a ∈ l, f a = .ok none ∨ ∃ b ∈ out, f a = .ok (some b) := by
  intro l
  induction l with
  | nil =>
    intro out h a ha
    exact absurd ha (List.not_mem_nil a)
  | cons x xs ih =>
    intro out h a ha
    unfold filterMapPanic at h
    cases hfx : f x with
    | panic => rw [hfx] at h; exact PanicOr.noConfusion h
    | ok ob =>
      rw [hfx] at h
      cases hrest : filterMapPanic f xs with
      | panic => rw [hrest] at h; exact PanicOr.noConfusion h
      | ok bs =>
        rw [hrest] at h
        simp only [PanicOr.bind] at h
        injection h with h
        subst h
        rcases List.mem_cons.mp ha with rfl | ha
        · cases ob with
          | some b0 => exact Or.inr ⟨b0, List.mem_cons_self b0 bs, hfx⟩
          | none => exact Or.inl hfx
        · rcases ih bs hrest a ha with hnone | ⟨b, hb, hfa⟩
          · exact Or.inl hnone
          · refine Or.inr ⟨b, ?_, hfa⟩
            cases ob with
            | some b0 => exact List.mem_cons_of_mem b0 hb
            | none => exact hb

/-! ### Lemmas about the stable sort -/

theorem insertByScore_perm (x : Nat × FuzzyMatch) :
    ∀ l : List (Nat × FuzzyMatch), (insertByScore x l).Perm (x :: l) := by
  intro l
  induction l with
  | nil => exact List.Perm.refl _
  | cons y ys ih =>
    unfold insertByScore
    split
    · exact ((ih.cons y).trans (List.Perm.swap x y ys))
    · exact List.Perm.refl _

theorem sortByScore_perm :
    ∀ l : List (Nat × FuzzyMatch), (sortByScore l).Perm l := by
  intro l
  induction l with
  | nil => exact List.Perm.refl _
  | cons x xs ih =>
    unfold sortByScore
    exact (insertByScore_perm x (sortByScore xs)).trans (ih.cons x)

theorem mem_insertByScore {x z : Nat × FuzzyMatch} :
    ∀ {l : List (Nat × FuzzyMatch)}, z ∈ insertByScore x l → z = x ∨ z ∈ l := by
  intro l hz
  have := (insertByScore_perm x l).mem_iff.mp hz
  exact List.mem_cons.mp this

theorem insertByScore_pairwise {x : Nat × FuzzyMatch} :
    ∀ {l : List (Nat × FuzzyMatch)}, l.Pairwise RankedLE →
      (∀ y ∈ l, x.1 < y.1) → (insertByScore x l).Pairwise RankedLE := by
  intro l
  induction l with
  | nil =>
    intro _ _
    simp [insertByScore]
  | cons y ys ih =>
    intro hp hidx
    rw [List.pairwise_cons] at hp
    obtain ⟨hy, hys⟩ := hp
    unfold insertByScore
    split
    · next hgt =>
      rw [List.pairwise_cons]
      constructor
      · intro z hz
        rcases mem_insertByScore hz with rfl | hz
        · exact Or.inl hgt
        · exact hy z hz
      · exact ih hys (fun z hz => hidx z (List.mem_cons_of_mem y hz))
    · next hle =>
      rw [List.pairwise_cons]
      constructor
      · intro z hz
        rcases List.mem_cons.mp hz with rfl | hz
        · rcases lt_or_eq_of_le (le_of_not_lt hle) with hlt | heq
          · exact Or.inl hlt
          · exact Or.inr ⟨heq.symm, hidx z (List.mem_cons_self _ _)⟩
        · rcases hy z hz with hlt | ⟨heq, _⟩
          · exact Or.inl (lt_of_lt_of_le hlt (le_of_not_lt hle))
          · rcases lt_or_eq_of_le (le_of_not_lt hle) with hlt' | heq'
            · exact Or.inl (heq ▸ hlt')
            · exact Or.inr ⟨(heq'.symm.trans heq), hidx z (List.mem_cons_of_mem _ hz)⟩
      · exact List.pairwise_cons.mpr ⟨hy, hys⟩

/-- Sorting a list whose original indices are strictly increasing yields
a list that is pairwise `RankedLE`: scores weakly decrease, and tied
scores keep the ascending original-index order. -/
theorem sortByScore_pairwise :
    ∀ {l : List (Nat × FuzzyMatch)}, l.Pairwise (fun a b => a.1 < b.1) →
      (sortByScore l).Pairwise RankedLE := by
  intro l
  induction l with
  | nil =>
    intro _
    simp [sortByScore]
  | cons x xs ih =>
    intro hp
    rw [List.pairwise_cons] at hp
    obtain ⟨hx, hxs⟩ := hp
    unfold sortByScore
    refine insertByScore_pairwise (ih hxs) ?_
    intro y hy
    exact hx y ((sortByScore_perm xs).mem_iff.mp hy)

/-! ### Lemmas about the ranker -/

/-- `best` is `max_by_key` over the flattened field-match list. -/
theorem candidateBest_eq_fieldMatches (query : List Char) (cmd : Command) :
    candidateBest query cmd
      = (fieldMatches query cmd).bind fun fl => .ok (maxByScore fl) := by
  unfold candidateBest fieldMatches
  cases nameMatch query cmd with
  | panic => rfl
  | ok nm =>
    cases descMatch query cmd with
    | panic => rfl
    | ok dm =>
      cases keywordMatch query cmd with
      | panic => rfl
      | ok km => rfl

/-- When the per-element function tags each produced element with a key
of the input element, the keys of a successful panic-aware `filter_map`
form a sublist of the keys of the input. -/
theorem filterMapPanic_key_sublist {α β γ : Type} (f : α → PanicOr (Option β))
    (key : α → γ) (val : β → γ)
    (hf : ∀ a b, f a = .ok (some b) → val b = key a) :
    ∀ (l : List α) (out : List β), filterMapPanic f l = .ok out →
      List.Sublist (out.map val) (l.map key) := by
  intro l
  induction l with
  | nil =>
    intro out h
    unfold filterMapPanic at h
    injection h with h
    subst h
    simp
  | cons x xs ih =>
    intro out h
    unfold filterMapPanic at h
    cases hfx : f x with
    | panic => rw [hfx] at h; exact PanicOr.noConfusion h
    | ok ob =>
      rw [hfx] at h
      cases hrest : filterMapPanic f xs with
      | panic => rw [hrest] at h; exact PanicOr.noConfusion h
      | ok bs =>
        rw [hrest] at h
        simp only [PanicOr.bind] at h
        injection h with h
        subst h
        cases ob with
        | some b0 =>
          simp only [List.map_cons]
          rw [hf x b0 hfx]
          exact List.Sublist.cons₂ (key x) (ih bs hrest)
        | none =>
          simp only [List.map_cons]
          exact List.Sublist.cons (key x) (ih bs hrest)

/-- The original indices of the pre-sort `matches` vector form a sublist
of the enumeration's indices. -/
theorem rankPre_fst_sublist {query : List Char} {commands : List Command}
    {pre : List (Nat × FuzzyMatch)} (h : rankPre query commands = .ok pre) :
    List.Sublist (pre.map Prod.fst) (commands.enum.map Prod.fst) := by
  refine filterMapPanic_key_sublist _ Prod.fst Prod.fst ?_ commands.enum pre h
  intro p b hpb
  cases hcb : candidateBest query p.2 with
  | panic => rw [hcb] at hpb; exact PanicOr.noConfusion hpb
  | ok ob =>
    rw [hcb] at hpb
    simp only [PanicOr.bind] at hpb
    injection hpb with hpb
    cases ob with
    | none => exact Option.noConfusion hpb
    | some m =>
      injection hpb with hpb
      rw [← hpb]

/-- The pre-sort `matches` vector carries strictly increasing original
indices. -/
theorem rankPre_pairwise_fst {query : List Char} {commands : List Command}
    {pre : List (Nat × FuzzyMatch)} (h : rankPre query commands = .ok pre) :
    pre.Pairwise (fun a b => a.1 < b.1) := by
  have hsub := rankPre_fst_sublist h
  have hrange : (commands.enum.map Prod.fst).Pairwise (· < ·) := by
    rw [List.enum_map_fst]
    exact List.pairwise_lt_range _
  have := hrange.sublist hsub
  exact List.pairwise_map.mp this

/-- Destructuring a successful non-empty-query ranking call into its
pre-sort vector. -/
theorem filter_commands_ok_nonempty {q : List Char} {cmds : List Command}
    {r : List (Nat × FuzzyMatch)} (hq : q ≠ []) (h : filter_commands q cmds = .ok r) :
    ∃ pre, rankPre q cmds = .ok pre ∧ r = sortByScore pre := by
  unfold filter_commands at h
  rw [if_neg hq] at h
  cases hpre : rankPre q cmds with
  | panic => rw [hpre] at h; exact PanicOr.noConfusion h
  | ok pre =>
    rw [hpre] at h
    simp only [PanicOr.bind] at h
    injection h with h
    exact ⟨pre, rfl, h.symm⟩

/-- A successful per-candidate `best` computation determines a successful
`fieldMatches` computation whose `max_by_key` it is. -/
theorem candidateBest_ok_some {q : List Char} {cmd : Command} {m : FuzzyMatch}
    (h : candidateBest q cmd = .ok (some m)) :
    ∃ fl, fieldMatches q cmd = .ok fl ∧ maxByScore fl = some m := by
  rw [candidateBest_eq_fieldMatches] at h
  cases hfl : fieldMatches q cmd with
  | panic => rw [hfl] at h; exact PanicOr.noConfusion h
  | ok fl =>
    rw [hfl] at h
    simp only [PanicOr.bind] at h
    injection h with h
    exact ⟨fl, rfl, h⟩

/-- A per-candidate `best` computation that produces no match determines
an empty `fieldMatches` list: no field produced a match. -/
theorem candidateBest_ok_none {q : List Char} {cmd : Command}
    (h : candidateBest q cmd = .ok none) : fieldMatches q cmd = .ok [] := by
  rw [candidateBest_eq_fieldMatches] at h
  cases hfl : fieldMatches q cmd with
  | panic => rw [hfl] at h; exact PanicOr.noConfusion h
  | ok fl =>
    rw [hfl] at h
    simp only [PanicOr.bind] at h
    injection h with h
    rw [maxByScore_eq_none h]

/-- The per-element closure of `rankPre`, analysed on a successful
`some` outcome: the produced pair carries the candidate's original index
and a `best` result for the candidate. -/
theorem rankPre_elem_some {q : List Char} {a : Nat × Command} {b : Nat × FuzzyMatch}
    (h : ((candidateBest q a.2).bind fun ob => .ok (ob.map fun m => (a.1, m)))
      = .ok (some b)) :
    b.1 = a.1 ∧ candidateBest q a.2 = .ok (some b.2) := by
  cases hcb : candidateBest q a.2 with
  | panic => rw [hcb] at h; exact PanicOr.noConfusion h
  | ok ob =>
    rw [hcb] at h
    simp only [PanicOr.bind] at h
    injection h with h
    cases ob with
    | none => exact Option.noConfusion h
    | some m =>
      injection h with h
      rw [← h]
      exact ⟨rfl, rfl⟩

/-- The per-element closure of `rankPre`, analysed on a successful `none`
outcome: the candidate's `best` computation produced no match. -/
theorem rankPre_elem_none {q : List Char} {a : Nat × Command}
    (h : ((candidateBest q a.2).bind fun ob => .ok (ob.map fun m => (a.1, m)))
      = .ok none) :
    candidateBest q a.2 = .ok none := by
  cases hcb : candidateBest q a.2 with
  | panic => rw [hcb] at h; exact PanicOr.noConfusion h
  | ok ob =>
    rw [hcb] at h
    simp only [PanicOr.bind] at h
    injection h with h
    cases ob with
    | none => rfl
    | some m => exact Option.noConfusion h

/-- Claim C4: with a non-empty query, every returned entry pairs a
retained candidate's original index with the maximum-scoring match among
the candidate's fields that actually matched (name, description if
present, best keyword), candidates none of whose fields matched are
dropped entirely, and the result is no longer than the input. -/
theorem filter_commands_best_per_candidate (q : List Char) (cmds : List Command)
    (r : List (Nat × FuzzyMatch)) (hq : q ≠ [])
    (h : filter_commands q cmds = .ok r) :
    r.length ≤ cmds.length ∧
      (∀ p ∈ r, ∃ cmd fl, cmds[p.1]? = some cmd ∧ fieldMatches q cmd = .ok fl ∧
        p.2 ∈ fl ∧ ∀ m ∈ fl, m.score ≤ p.2.score) ∧
      (∀ i cmd, cmds[i]? = some cmd → (∀ p ∈ r, p.1 ≠ i) →
        fieldMatches q cmd = .ok []) := by
  obtain ⟨pre, hpre, hr⟩ := filter_commands_ok_nonempty hq h
  have hrperm : r.Perm pre := hr ▸ sortByScore_perm pre
  refine ⟨?_, ?_, ?_⟩
  · have h1 : (pre.map Prod.fst).length ≤ (cmds.enum.map Prod.fst).length :=
      (rankPre_fst_sublist hpre).length_le
    rw [List.length_map, List.length_map, List.enum_length] at h1
    rw [hrperm.length_eq]
    exact h1
  · intro p hp
    have hp' : p ∈ pre := hrperm.mem_iff.mp hp
    obtain ⟨a, ha, hfa⟩ := filterMapPanic_mem _ cmds.enum pre hpre p hp'
    obtain ⟨hfst, hcb⟩ := rankPre_elem_some hfa
    obtain ⟨fl, hfl, hmax⟩ := candidateBest_ok_some hcb
    obtain ⟨hmem, hle⟩ := maxByScore_some hmax
    refine ⟨a.2, fl, ?_, hfl, hmem, hle⟩
    rw [hfst]
    exact List.mem_enum_iff_getElem?.mp ha
  · intro i cmd hcmd hnone
    have ha : (i, cmd) ∈ cmds.enum := List.mem_enum_iff_getElem?.mpr hcmd
    rcases filterMapPanic_forall _ cmds.enum pre hpre (i, cmd) ha with hn | ⟨b, hb, hfb⟩
    · exact candidateBest_ok_none (rankPre_elem_none hn)
    · obtain ⟨hfst, _⟩ := rankPre_elem_some hfb
      exact absurd hfst (hnone b (hrperm.mem_iff.mpr hb))

/-- Claim C5: the ranking output is sorted by non-increasing score — for
every adjacent pair the later score is at most the earlier one. This
covers both the empty-query fast path (all scores 0) and the sorted
non-empty path. -/
theorem filter_commands_sorted (q : List Char) (cmds : List Command)
    (r : List (Nat × FuzzyMatch)) (h : filter_commands q cmds = .ok r) :
    ∀ i a b, r[i]? = some a → r[i + 1]? = some b → b.2.score ≤ a.2.score := by
  intro i a b ha hb
  by_cases hq : q = []
  · subst hq
    unfold filter_commands at h
    rw [if_pos rfl] at h
    injection h with h
    subst h
    have hma : a ∈ cmds.enum.map fun p => (p.1, ({ score := 0, indices := [] } : FuzzyMatch)) :=
      List.getElem?_mem ha
    have hmb : b ∈ cmds.enum.map fun p => (p.1, ({ score := 0, indices := [] } : FuzzyMatch)) :=
      List.getElem?_mem hb
    obtain ⟨pa, _, hpa⟩ := List.mem_map.mp hma
    obtain ⟨pb, _, hpb⟩ := List.mem_map.mp hmb
    rw [← hpa, ← hpb]
  · obtain ⟨pre, hpre, hr⟩ := filter_commands_ok_nonempty hq h
    have hpw : r.Pairwise RankedLE := hr ▸ sortByScore_pairwise (rankPre_pairwise_fst hpre)
    obtain ⟨hia, ha'⟩ := List.getElem?_eq_some.mp ha
    obtain ⟨hib, hb'⟩ := List.getElem?_eq_some.mp hb
    have := List.pairwise_iff_getElem.mp hpw i (i + 1) hia hib (Nat.lt_succ_self i)
    rw [ha', hb'] at this
    rcases this with hlt | ⟨heq, _⟩
    · exact le_of_lt hlt
    · exact le_of_eq heq.symm

/-- Claim C6: with the empty query, ranking returns every candidate in
original order, each paired with score 0 and an empty index list, and the
result has exactly the input's length. -/
theorem filter_commands_empty_query (cmds : List Command) :
    filter_commands [] cmds
      = .ok ((List.range cmds.length).map
          fun i => (i, ({ score := 0, indices := [] } : FuzzyMatch))) ∧
      ((List.range cmds.length).map
          fun i => (i, ({ score := 0, indices := [] } : FuzzyMatch))).length
        = cmds.length := by
  constructor
  · unfold filter_commands
    rw [if_pos rfl]
    congr 1
    rw [← List.enum_map_fst cmds, List.map_map]
    rfl
  · simp

/-- Claim C9: with a non-empty query, entries with equal scores appear in
the output in ascending original-index order — the sort comparator reads
only the score and the modelled sort is stable. -/
theorem filter_commands_tie_order (q : List Char) (cmds : List Command)
    (r : List (Nat × FuzzyMatch)) (hq : q ≠ [])
    (h : filter_commands q cmds = .ok r) :
    ∀ (i j : Nat) (a b : Nat × FuzzyMatch), i < j → r[i]? = some a → r[j]? = some b →
      a.2.score = b.2.score → a.1 < b.1 := by
  intro i j a b hij ha hb heq
  obtain ⟨pre, hpre, hr⟩ := filter_commands_ok_nonempty hq h
  have hpw : r.Pairwise RankedLE := hr ▸ sortByScore_pairwise (rankPre_pairwise_fst hpre)
  obtain ⟨hia, ha'⟩ := List.getElem?_eq_some.mp ha
  obtain ⟨hib, hb'⟩ := List.getElem?_eq_some.mp hb
  have := List.pairwise_iff_getElem.mp hpw i j hia hib hij
  rw [ha', hb'] at this
  rcases this with hlt | ⟨_, hidx⟩
  · exact absurd heq (ne_of_gt hlt)
  · exact hidx

/-- Claim C10: when the name match, the description match and the best
keyword match all exist and tie on the maximal score, `best` picks the
keyword match — `max_by_key` keeps the last of equally-maximal elements
in the fixed evaluation order name, description, keyword — so the choice
is a deterministic function of the inputs. -/
theorem candidateBest_tie_last (q : List Char) (cmd : Command)
    (nm dm km : FuzzyMatch)
    (h1 : nameMatch q cmd = .ok (some nm))
    (h2 : descMatch q cmd = .ok (some dm))
    (h3 : keywordMatch q cmd = .ok (some km))
    (e1 : nm.score = dm.score) (e2 : dm.score = km.score) :
    candidateBest q cmd = .ok (some km) := by
  have g1 : ¬ nm.score > dm.score := by rw [e1]; exact lt_irrefl _
  have g2 : ¬ dm.score > km.score := by rw [e2]; exact lt_irrefl _
  unfold candidateBest
  rw [h1]
  simp only [PanicOr.bind]
  rw [h2]
  simp only [PanicOr.bind]
  rw [h3]
  simp only [PanicOr.bind]
  simp [maxByScore, maxByScoreAux, g1, g2]

/-! ### Navigation claims -/

/-- Claim C7, counterexample: the claim states `navigate_up(current, 0)`
returns 0 or `current` unchanged, but at `current = 5`, `item_count = 0`
the code returns `current - 1 = 4`, which is neither. -/
theorem navigate_up_zero_count_counterexample :
    navigate_up 5 0 = 4 ∧ ¬ ((4 : Nat) = 0 ∨ (4 : Nat) = 5) := by decide

/-- Claim C7 (amended): `navigate_up(current, n)` always returns `n - 1`
(saturating, hence 0 when `n = 0`) if `current = 0` and `current - 1`
otherwise, regardless of `n`; in particular for `n > 0` it returns `n - 1`
when `current = 0` and `current - 1` otherwise, as claimed, and it is a
total function (no panic, no indexing). -/
theorem navigate_up_eq (current n : Nat) :
    navigate_up current n = if current = 0 then n - 1 else current - 1 := by
  unfold navigate_up
  by_cases h : current = 0
  · rw [if_pos h, if_pos h]
    by_cases hn : n > 0
    · rw [if_pos hn]
    · rw [if_neg hn]
      omega
  · rw [if_neg h, if_neg h]

/-! ### The Unicode-folding panic -/

/-- Claim C1, failing input: `'a'` is a non-empty pattern and a
case-insensitive subsequence of `"İa"` (whose lowercase folding is
`"i\u{307}a"`, one character longer than the original), yet `fuzzy_match`
does not return `Some`: the match lands at lowered index 2, and
`is_word_boundary` indexes the original 2-character sequence at
position 2, which panics. -/
theorem fuzzy_match_panics_on_matching_input :
    (['a'] : List Char) ≠ [] ∧
      List.Sublist (strLower ['a']) (strLower ['İ', 'a']) ∧
      fuzzy_match ['a'] ['İ', 'a'] = .panic := by
  refine ⟨by decide, by decide, by decide⟩

/-- Claim C2, failing input: `"ab"` is not a case-insensitive subsequence
of `"İa"`, yet `fuzzy_match` does not return `None`: the scan matches
`'a'` at lowered index 2 before discovering that `'b'` is missing, and
the word-boundary check at that out-of-range position panics. -/
theorem fuzzy_match_panics_on_non_matching_input :
    ¬ List.Sublist (strLower ['a', 'b']) (strLower ['İ', 'a']) ∧
      fuzzy_match ['a', 'b'] ['İ', 'a'] = .panic := by
  refine ⟨by decide, by decide⟩

/-- Claim C8, failing input: on pattern `"\u{307}"` and target `"İ"`
(a single character whose lowercase folding has two characters),
`fuzzy_match` panics: `is_word_boundary` is called with index 1 against
the original 1-character sequence and performs an unchecked out-of-range
access. -/
theorem fuzzy_match_unchecked_index_panic :
    fuzzy_match [Char.ofNat 0x307] ['İ'] = .panic ∧
      is_word_boundary ['İ'] 1 = .panic := by
  refine ⟨by decide, by decide⟩

/-! ### Witnesses for the ranking claims -/

/-- Witness for claim C4 at query `"a"` over commands `"a"`, `"b"`: the
first command is retained with its name match, the second is dropped. -/
theorem filter_commands_best_per_candidate_witness :
    (['a'] : List Char) ≠ [] ∧
      filter_commands ['a'] [cmdA, cmdB] = .ok [(0, matchA)] ∧
      ([(0, matchA)].length ≤ ([cmdA, cmdB] : List Command).length ∧
        (∀ p ∈ [(0, matchA)], ∃ cmd fl,
          ([cmdA, cmdB] : List Command)[p.1]? = some cmd ∧
          fieldMatches ['a'] cmd = .ok fl ∧ p.2 ∈ fl ∧ ∀ m ∈ fl, m.score ≤ p.2.score) ∧
        (∀ i cmd, ([cmdA, cmdB] : List Command)[i]? = some cmd →
          (∀ p ∈ [(0, matchA)], p.1 ≠ i) → fieldMatches ['a'] cmd = .ok [])) :=
  ⟨by decide, by decide,
    filter_commands_best_per_candidate ['a'] [cmdA, cmdB] [(0, matchA)]
      (by decide) (by decide)⟩

/-- Witness for claim C5 at query `"a"` over two tied commands. -/
theorem filter_commands_sorted_witness :
    filter_commands ['a'] [cmdA, cmdA] = .ok [(0, matchA), (1, matchA)] ∧
      ([(0, matchA), (1, matchA)] : List (Nat × FuzzyMatch))[0]? = some (0, matchA) ∧
      ([(0, matchA), (1, matchA)] : List (Nat × FuzzyMatch))[0 + 1]? = some (1, matchA) ∧
      (1, matchA).2.score ≤ (0, matchA).2.score :=
  ⟨by decide, by decide, by decide,
    filter_commands_sorted ['a'] [cmdA, cmdA] [(0, matchA), (1, matchA)]
      (by decide) 0 (0, matchA) (1, matchA) (by decide) (by decide)⟩

/-- Witness for claim C9 at query `"a"` over two tied commands: the tied
entries keep ascending original-index order. -/
theorem filter_commands_tie_order_witness :
    (['a'] : List Char) ≠ [] ∧
      filter_commands ['a'] [cmdA, cmdA] = .ok [(0, matchA), (1, matchA)] ∧
      (0 : Nat) < 1 ∧
      ([(0, matchA), (1, matchA)] : List (Nat × FuzzyMatch))[0]? = some (0, matchA) ∧
      ([(0, matchA), (1, matchA)] : List (Nat × FuzzyMatch))[1]? = some (1, matchA) ∧
      (0, matchA).2.score = (1, matchA).2.score ∧
      (0, matchA).1 < (1, matchA).1 :=
  ⟨by decide, by decide, by decide, by decide, by decide, by decide,
    filter_commands_tie_order ['a'] [cmdA, cmdA] [(0, matchA), (1, matchA)]
      (by decide) (by decide) 0 1 (0, matchA) (1, matchA)
      (by decide) (by decide) (by decide) (by decide)⟩

/-- Witness for claim C10 at query `"a"` against a command whose name,
description and sole keyword all match with equal score. -/
theorem candidateBest_tie_last_witness :
    nameMatch ['a'] cmdTie = .ok (some matchA) ∧
      descMatch ['a'] cmdTie = .ok (some matchA) ∧
      keywordMatch ['a'] cmdTie = .ok (some matchA) ∧
      matchA.score = matchA.score ∧ matchA.score = matchA.score ∧
      candidateBest ['a'] cmdTie = .ok (some matchA) :=
  ⟨by decide, by decide, by decide, rfl, rfl,
    candidateBest_tie_last ['a'] cmdTie matchA matchA matchA
      (by decide) (by decide) (by decide) rfl rfl⟩

end IcedPalette
